import Mathlib

/-!
Verification of the LRU frame-replacement simulator (main_logic.cpp).

The C++ program keeps three cooperating pieces of state inside `main`:
  * `vector<int> ram(3,-1)`        — the fixed frame table, sentinel -1 = empty slot;
  * `list<int> check_usage`        — recency order, front = most recently used;
  * `unordered_map<int, iterator>` — lookup from identifier to its list node,
                                     used only for membership, insertion and erasure.

We embed this state as `SimState` and the per-access body of the main loop
(lines 28-61) as `accessStep`.  The map's payload (the iterator) matters only
through the splice-to-front it enables, which we model directly, so the map is
embedded as its key list `mp`.
-/

namespace LRUSim

/-- HIT/MISS classification printed per access. -/
inductive Classification where
  | HIT : Classification
  | MISS : Classification
deriving DecidableEq

/-- The mutable state of the main loop: frame table `ram` (length 3, sentinel -1),
recency list `usage` (front = MRU, back = LRU), and the key set `mp` of the
id-to-node map. -/
structure SimState where
  ram : List Int
  usage : List Int
  mp : List Int
deriving DecidableEq

/-- Initial state: `vector<int> ram(3,-1)`, empty list, empty map (lines 23-25). -/
def initState : SimState := ⟨[-1, -1, -1], [], []⟩

/-- The placement loop of lines 44-55: scan slots left to right; at the first
slot holding -1, or failing that the victim, write `id` and stop.  If no slot
matches the loop falls through and the table is unchanged. -/
def place (id victim : Int) : List Int → List Int
  | [] => []
  | r :: rs =>
    if r = -1 then id :: rs
    else if r = victim then id :: rs
    else r :: place id victim rs

/-- The splice of line 32: move the (unique) node holding `id` to the front. -/
def moveToFront (id : Int) (l : List Int) : List Int := id :: l.erase id

/-- Lines 36-40: read the LRU element at the back, pop it, erase it from the map.
Returns the victim together with the updated state. -/
def evictLRU (s : SimState) : Int × SimState :=
  (s.usage.getLast?.getD (-1),
    ⟨s.ram, s.usage.dropLast, s.mp.erase (s.usage.getLast?.getD (-1))⟩)

/-- Result of processing one access: the successor state, the HIT/MISS
classification, and the `victim` variable of the MISS branch (-1 when no
eviction happened, matching its initialisation at line 35). -/
structure StepResult where
  state : SimState
  cls : Classification
  victim : Int
deriving DecidableEq

/-- One iteration of the main loop (lines 28-61).  Membership is tested on the
map (line 30); a HIT splices the node to the front (line 32); a MISS evicts the
back element when the list is full (lines 36-40), pushes the new id to the
front of the list and the map (lines 41-42), and runs the placement scan
(lines 44-55). -/
def accessStep (s : SimState) (id : Int) : StepResult :=
  if id ∈ s.mp then
    ⟨⟨s.ram, moveToFront id s.usage, s.mp⟩, Classification.HIT, -1⟩
  else if s.usage.length = 3 then
    ⟨⟨place id (evictLRU s).1 s.ram, id :: (evictLRU s).2.usage,
      id :: (evictLRU s).2.mp⟩, Classification.MISS, (evictLRU s).1⟩
  else
    ⟨⟨place id (-1) s.ram, id :: s.usage, id :: s.mp⟩, Classification.MISS, -1⟩

/-- State after processing a whole input sequence from the initial state. -/
def execState (inputs : List Int) : SimState :=
  inputs.foldl (fun s id => (accessStep s id).state) initState

/-- One line of the printed trace: accessed id, HIT/MISS, the victim variable
(-1 = none), and the frame snapshot printed at lines 57-59. -/
structure TraceRecord where
  reqId : Int
  cls : Classification
  victim : Int
  frames : List Int
deriving DecidableEq

/-- The trace produced from a given state by a list of accesses. -/
def runFrom (s : SimState) : List Int → List TraceRecord
  | [] => []
  | id :: rest =>
    ⟨id, (accessStep s id).cls, (accessStep s id).victim,
      (accessStep s id).state.ram⟩ :: runFrom (accessStep s id).state rest

/-- The full trace of the program on a given input sequence. -/
def simulate (inputs : List Int) : List TraceRecord := runFrom initState inputs

/-! ### The reachable-state invariant

For input sequences of well-formed identifiers (never the sentinel -1) the
program maintains: the recency list is duplicate-free, never longer than 3,
never contains the sentinel, the map's key set has exactly the list's
elements, and the frame table is the recency contents (in some order) packed
to the left followed by sentinel slots. -/

def Inv (s : SimState) : Prop :=
  s.usage.Nodup ∧ (-1 : Int) ∉ s.usage ∧ s.usage.length ≤ 3 ∧
  List.Perm s.mp s.usage ∧
  ∃ front : List Int,
    s.ram = front ++ List.replicate (3 - s.usage.length) (-1) ∧
    List.Perm front s.usage

theorem inv_init : Inv initState :=
  ⟨List.nodup_nil, by simp [initState], by simp [initState],
    List.Perm.refl _, [], by simp [initState], List.Perm.refl _⟩

/-! ### Placement-scan lemmas -/

theorem place_skip (id victim : Int) {l₁ : List Int} (l₂ : List Int)
    (h : ∀ r ∈ l₁, r ≠ -1 ∧ r ≠ victim) :
    place id victim (l₁ ++ l₂) = l₁ ++ place id victim l₂ := by
  induction l₁ with
  | nil => rfl
  | cons r rs ih =>
    have hr := h r (List.mem_cons_self r rs)
    simp only [List.cons_append, place, if_neg hr.1, if_neg hr.2, List.append_eq]
    rw [ih (fun x hx => h x (List.mem_cons_of_mem _ hx))]

theorem place_cons_head (id victim r : Int) (rs : List Int)
    (h : r = -1 ∨ r = victim) : place id victim (r :: rs) = id :: rs := by
  rcases h with h | h
  · simp [place, h]
  · by_cases h1 : r = -1 <;> simp [place, h, h1]

theorem place_sentinel_self (l : List Int) : place (-1) (-1) l = l := by
  induction l with
  | nil => rfl
  | cons r rs ih =>
    by_cases h : r = -1
    · subst h; simp [place]
    · simp [place, h, ih]

theorem exists_first_split {a : Int} : ∀ {l : List Int}, a ∈ l →
    ∃ l₁ l₂, l = l₁ ++ a :: l₂ ∧ a ∉ l₁ := by
  intro l
  induction l with
  | nil => intro h; exact absurd h (List.not_mem_nil a)
  | cons b bs ih =>
    intro h
    by_cases hb : b = a
    · exact ⟨[], bs, by rw [hb]; rfl, List.not_mem_nil a⟩
    · have hbs : a ∈ bs := by
        rcases List.mem_cons.mp h with h1 | h1
        · exact absurd h1.symm hb
        · exact h1
      rcases ih hbs with ⟨l₁, l₂, heq, hnm⟩
      refine ⟨b :: l₁, l₂, by rw [List.cons_append, heq], ?_⟩
      simp only [List.mem_cons, not_or]
      exact ⟨fun hc => hb hc.symm, hnm⟩

/-! ### Branch equations for accessStep -/

theorem accessStep_hit {s : SimState} {id : Int} (h : id ∈ s.mp) :
    accessStep s id =
      ⟨⟨s.ram, moveToFront id s.usage, s.mp⟩, Classification.HIT, -1⟩ := by
  simp [accessStep, h]

theorem accessStep_miss_full {s : SimState} {id : Int} (h : id ∉ s.mp)
    (hlen : s.usage.length = 3) :
    accessStep s id =
      ⟨⟨place id (s.usage.getLast?.getD (-1)) s.ram, id :: s.usage.dropLast,
        id :: s.mp.erase (s.usage.getLast?.getD (-1))⟩,
        Classification.MISS, s.usage.getLast?.getD (-1)⟩ := by
  simp [accessStep, h, hlen, evictLRU]

theorem accessStep_miss_small {s : SimState} {id : Int} (h : id ∉ s.mp)
    (hlen : s.usage.length ≠ 3) :
    accessStep s id =
      ⟨⟨place id (-1) s.ram, id :: s.usage, id :: s.mp⟩,
        Classification.MISS, -1⟩ := by
  simp [accessStep, h, hlen]

/-! ### Invariant preservation -/

theorem inv_step {s : SimState} {id : Int} (hs : Inv s) (hid : id ≠ -1) :
    Inv (accessStep s id).state := by
  obtain ⟨hnd, hneg, hlen, hperm, front, hram, hfp⟩ := hs
  by_cases hmem : id ∈ s.mp
  · rw [accessStep_hit hmem]
    have hidu : id ∈ s.usage := hperm.mem_iff.mp hmem
    have husage : List.Perm (moveToFront id s.usage) s.usage :=
      (List.perm_cons_erase hidu).symm
    refine ⟨husage.symm.nodup hnd, fun hc => hneg (husage.mem_iff.mp hc), ?_,
      hperm.trans husage.symm, front, ?_, hfp.trans husage.symm⟩
    · rw [husage.length_eq]; exact hlen
    · rw [husage.length_eq]; exact hram
  · have hidu : id ∉ s.usage := fun hc => hmem (hperm.mem_iff.mpr hc)
    by_cases hlen3 : s.usage.length = 3
    · rw [accessStep_miss_full hmem hlen3]
      rcases List.eq_nil_or_concat' s.usage with hnil | ⟨ys, v, hy⟩
      · rw [hnil] at hlen3; simp at hlen3
      · have hvic : s.usage.getLast?.getD (-1) = v := by
          rw [hy, List.getLast?_concat]; rfl
        have hdrop : s.usage.dropLast = ys := by rw [hy, List.dropLast_concat]
        have hvusage : v ∈ s.usage := by
          rw [hy]; exact List.mem_append_right _ (List.mem_singleton.mpr rfl)
        have hndys : ys.Nodup ∧ v ∉ ys := by
          rw [hy] at hnd
          rcases List.nodup_append.mp hnd with ⟨h1, _, h3⟩
          exact ⟨h1, fun hc => h3 hc (List.mem_singleton.mpr rfl)⟩
        have hrep0 : (3 : Nat) - s.usage.length = 0 := by omega
        have hram' : s.ram = front := by rw [hram, hrep0]; simp
        have hvfront : v ∈ front := hfp.mem_iff.mpr hvusage
        rcases exists_first_split hvfront with ⟨l₁, l₂, hsplit, hvl₁⟩
        have hl₁ : ∀ r ∈ l₁, r ≠ -1 ∧ r ≠ v := by
          intro r hr
          have hrf : r ∈ front := by rw [hsplit]; exact List.mem_append_left _ hr
          have hru : r ∈ s.usage := hfp.mem_iff.mp hrf
          exact ⟨fun hc => hneg (hc ▸ hru), fun hc => hvl₁ (hc ▸ hr)⟩
        have hplace : place id v s.ram = l₁ ++ id :: l₂ := by
          rw [hram', hsplit, place_skip id v _ hl₁,
            place_cons_head id v v _ (Or.inr rfl)]
        have herase_front : front.erase v = l₁ ++ l₂ := by
          rw [hsplit, List.erase_append_right _ hvl₁, List.erase_cons_head]
        have herase_usage : s.usage.erase v = ys := by
          rw [hy, List.erase_append_right _ hndys.2, List.erase_cons_head,
            List.append_nil]
        have hperm_l : List.Perm (l₁ ++ l₂) ys := by
          rw [← herase_front, ← herase_usage]; exact hfp.erase v
        have hlny : ys.length + 1 = 3 := by
          rw [hy] at hlen3; simpa using hlen3
        have hmp : List.Perm (s.mp.erase v) ys := herase_usage ▸ hperm.erase v
        rw [hvic, hdrop]
        refine ⟨?_, ?_, ?_, hmp.cons id, l₁ ++ id :: l₂, ?_, ?_⟩
        · refine List.nodup_cons.mpr ⟨fun hc => hidu ?_, hndys.1⟩
          rw [hy]; exact List.mem_append_left _ hc
        · simp only [List.mem_cons, not_or]
          refine ⟨fun hc => hid hc.symm, fun hc => hneg ?_⟩
          rw [hy]; exact List.mem_append_left _ hc
        · simp only [List.length_cons]; omega
        · simp only [List.length_cons]
          rw [hplace]
          have h0 : (3 : Nat) - (ys.length + 1) = 0 := by omega
          rw [h0]; simp
        · exact List.perm_middle.trans (hperm_l.cons id)
    · rw [accessStep_miss_small hmem hlen3]
      have hfneg : ∀ r ∈ front, r ≠ -1 ∧ r ≠ -1 := by
        intro r hr
        have hru : r ∈ s.usage := hfp.mem_iff.mp hr
        exact ⟨fun hc => hneg (hc ▸ hru), fun hc => hneg (hc ▸ hru)⟩
      have hrep : (3 : Nat) - s.usage.length = (3 - (s.usage.length + 1)) + 1 := by
        omega
      have hplace : place id (-1) s.ram =
          (front ++ [id]) ++ List.replicate (3 - (s.usage.length + 1)) (-1) := by
        rw [hram, hrep, List.replicate_succ, place_skip id (-1) _ hfneg,
          place_cons_head id (-1) (-1) _ (Or.inl rfl)]
        simp [List.append_assoc]
      refine ⟨List.nodup_cons.mpr ⟨hidu, hnd⟩, ?_, ?_, hperm.cons id,
        front ++ [id], ?_, ?_⟩
      · simp only [List.mem_cons, not_or]
        exact ⟨fun hc => hid hc.symm, hneg⟩
      · simp only [List.length_cons]; omega
      · simp only [List.length_cons]; exact hplace
      · exact (List.perm_append_singleton id front).trans (hfp.cons id)

/-- Auxiliary fold form of the invariant. -/
theorem inv_foldl : ∀ (inputs : List Int) (s : SimState), Inv s →
    (∀ x ∈ inputs, x ≠ -1) →
    Inv (inputs.foldl (fun t id => (accessStep t id).state) s) := by
  intro inputs
  induction inputs with
  | nil => intro s hs _; exact hs
  | cons a l ih =>
    intro s hs h
    simp only [List.foldl_cons]
    exact ih _ (inv_step hs (h a (List.mem_cons_self a l)))
      (fun x hx => h x (List.mem_cons_of_mem _ hx))

/-- Every state reached by a sequence of non-negative identifiers satisfies
the invariant. -/
theorem inv_exec (inputs : List Int) (h : ∀ x ∈ inputs, 0 ≤ x) :
    Inv (execState inputs) :=
  inv_foldl inputs initState inv_init
    (fun x hx => by have := h x hx; omega)

/-! ### Effects of a MISS in an invariant state -/

/-- In an invariant state at capacity, a MISS evicts the back element v of the
recency list, the frame table splits around the first slot holding v, and the
step replaces exactly that slot. -/
theorem miss_full_effects {s : SimState} {id : Int} (hs : Inv s)
    (hmem : id ∉ s.mp) (hlen3 : s.usage.length = 3) :
    ∃ v ys l₁ l₂,
      s.usage = ys ++ [v] ∧
      s.usage.getLast?.getD (-1) = v ∧
      v ≠ -1 ∧ v ∉ ys ∧ ys.Nodup ∧
      s.ram = l₁ ++ v :: l₂ ∧ v ∉ l₁ ∧ (-1 : Int) ∉ l₁ ∧
      accessStep s id =
        ⟨⟨l₁ ++ id :: l₂, id :: ys, id :: s.mp.erase v⟩,
          Classification.MISS, v⟩ := by
  obtain ⟨hnd, hneg, hlen, hperm, front, hram, hfp⟩ := hs
  rcases List.eq_nil_or_concat' s.usage with hnil | ⟨ys, v, hy⟩
  · rw [hnil] at hlen3; simp at hlen3
  · have hvic : s.usage.getLast?.getD (-1) = v := by
      rw [hy, List.getLast?_concat]; rfl
    have hdrop : s.usage.dropLast = ys := by rw [hy, List.dropLast_concat]
    have hvusage : v ∈ s.usage := by
      rw [hy]; exact List.mem_append_right _ (List.mem_singleton.mpr rfl)
    have hvneg : v ≠ -1 := fun hc => hneg (hc ▸ hvusage)
    have hndys : ys.Nodup ∧ v ∉ ys := by
      rw [hy] at hnd
      rcases List.nodup_append.mp hnd with ⟨h1, _, h3⟩
      exact ⟨h1, fun hc => h3 hc (List.mem_singleton.mpr rfl)⟩
    have hrep0 : (3 : Nat) - s.usage.length = 0 := by omega
    have hram' : s.ram = front := by rw [hram, hrep0]; simp
    have hvfront : v ∈ front := hfp.mem_iff.mpr hvusage
    rcases exists_first_split hvfront with ⟨l₁, l₂, hsplit, hvl₁⟩
    have hl₁ : ∀ r ∈ l₁, r ≠ -1 ∧ r ≠ v := by
      intro r hr
      have hrf : r ∈ front := by rw [hsplit]; exact List.mem_append_left _ hr
      have hru : r ∈ s.usage := hfp.mem_iff.mp hrf
      exact ⟨fun hc => hneg (hc ▸ hru), fun hc => hvl₁ (hc ▸ hr)⟩
    have hplace : place id v s.ram = l₁ ++ id :: l₂ := by
      rw [hram', hsplit, place_skip id v _ hl₁,
        place_cons_head id v v _ (Or.inr rfl)]
    refine ⟨v, ys, l₁, l₂, hy, hvic, hvneg, hndys.2, hndys.1,
      by rw [hram', hsplit], hvl₁, fun hc => (hl₁ _ hc).1 rfl, ?_⟩
    rw [accessStep_miss_full hmem hlen3, hvic, hdrop, hplace]

/-- In an invariant state below capacity, a MISS fills the first empty slot,
which sits at index equal to the resident count. -/
theorem miss_small_effects {s : SimState} {id : Int} (hs : Inv s)
    (hmem : id ∉ s.mp) (hlen3 : s.usage.length ≠ 3) :
    ∃ l₁ l₂,
      s.ram = l₁ ++ (-1 : Int) :: l₂ ∧ (-1 : Int) ∉ l₁ ∧
      l₁.length = s.usage.length ∧
      l₂ = List.replicate (3 - (s.usage.length + 1)) (-1) ∧
      accessStep s id =
        ⟨⟨l₁ ++ id :: l₂, id :: s.usage, id :: s.mp⟩,
          Classification.MISS, -1⟩ := by
  obtain ⟨hnd, hneg, hlen, hperm, front, hram, hfp⟩ := hs
  have hfneg : ∀ r ∈ front, r ≠ -1 ∧ r ≠ -1 := by
    intro r hr
    have hru : r ∈ s.usage := hfp.mem_iff.mp hr
    exact ⟨fun hc => hneg (hc ▸ hru), fun hc => hneg (hc ▸ hru)⟩
  have hrep : (3 : Nat) - s.usage.length = (3 - (s.usage.length + 1)) + 1 := by
    omega
  have hram' : s.ram =
      front ++ (-1 : Int) :: List.replicate (3 - (s.usage.length + 1)) (-1) := by
    rw [hram, hrep, List.replicate_succ]
  have hplace : place id (-1) s.ram =
      front ++ id :: List.replicate (3 - (s.usage.length + 1)) (-1) := by
    rw [hram', place_skip id (-1) _ hfneg,
      place_cons_head id (-1) (-1) _ (Or.inl rfl)]
  refine ⟨front, List.replicate (3 - (s.usage.length + 1)) (-1), hram',
    fun hc => (hfneg _ hc).1 rfl, hfp.length_eq.trans rfl, rfl, ?_⟩
  rw [accessStep_miss_small hmem hlen3, hplace]

/-! ### Claim theorems -/

/-- Claim C2: with capacity 3 and input sequence [1,2,3,1,4] the trace is:
1 MISS with frames [1,-1,-1]; 2 MISS with frames [1,2,-1]; 3 MISS with frames
[1,2,3]; 1 HIT with frames [1,2,3] unchanged; 4 MISS with victim 2 and frames
[1,4,3] (the slot that held 2 is replaced by 4). -/
theorem reference_trace :
    simulate [1, 2, 3, 1, 4] =
      [⟨1, Classification.MISS, -1, [1, -1, -1]⟩,
       ⟨2, Classification.MISS, -1, [1, 2, -1]⟩,
       ⟨3, Classification.MISS, -1, [1, 2, 3]⟩,
       ⟨1, Classification.HIT, -1, [1, 2, 3]⟩,
       ⟨4, Classification.MISS, 2, [1, 4, 3]⟩] := by decide

/-- Claim C8: in every state in which id is resident (present in the lookup
map), an access of id is classified HIT, leaves every frame slot unchanged,
and keeps id resident, so any immediate re-access is again a HIT with the
frames still unchanged. -/
theorem hit_leaves_frames (s : SimState) (id : Int) (h : id ∈ s.mp) :
    (accessStep s id).cls = Classification.HIT ∧
    (accessStep s id).state.ram = s.ram ∧
    id ∈ (accessStep s id).state.mp ∧
    (accessStep (accessStep s id).state id).cls = Classification.HIT ∧
    (accessStep (accessStep s id).state id).state.ram = s.ram := by
  rw [accessStep_hit h]
  refine ⟨rfl, rfl, h, ?_, ?_⟩ <;>
    rw [@accessStep_hit ⟨s.ram, moveToFront id s.usage, s.mp⟩ id h]

/-- Witness for C8 at a concrete resident state. -/
theorem hit_leaves_frames_witness :
    (1 : Int) ∈ (SimState.mk [1, 2, -1] [2, 1] [2, 1]).mp ∧
    ((accessStep ⟨[1, 2, -1], [2, 1], [2, 1]⟩ 1).cls = Classification.HIT ∧
     (accessStep ⟨[1, 2, -1], [2, 1], [2, 1]⟩ 1).state.ram = [1, 2, -1] ∧
     (1 : Int) ∈ (accessStep ⟨[1, 2, -1], [2, 1], [2, 1]⟩ 1).state.mp ∧
     (accessStep (accessStep ⟨[1, 2, -1], [2, 1], [2, 1]⟩ 1).state 1).cls =
       Classification.HIT ∧
     (accessStep (accessStep ⟨[1, 2, -1], [2, 1], [2, 1]⟩ 1).state 1).state.ram =
       [1, 2, -1]) :=
  ⟨by decide, hit_leaves_frames ⟨[1, 2, -1], [2, 1], [2, 1]⟩ 1 (by decide)⟩

/-- Claim C10: accessing the sentinel identifier -1 while it is not resident
and the tracker is below capacity yields a MISS, inserts -1 into the recency
list and the map, yet leaves every frame slot unchanged (the written slot
already held -1), and a subsequent access of -1 is a HIT. -/
theorem sentinel_access (s : SimState) (h1 : (-1 : Int) ∉ s.mp)
    (h2 : s.usage.length < 3) :
    (accessStep s (-1)).cls = Classification.MISS ∧
    (-1 : Int) ∈ (accessStep s (-1)).state.usage ∧
    (-1 : Int) ∈ (accessStep s (-1)).state.mp ∧
    (accessStep s (-1)).state.ram = s.ram ∧
    (accessStep (accessStep s (-1)).state (-1)).cls = Classification.HIT := by
  have hne : s.usage.length ≠ 3 := by omega
  rw [accessStep_miss_small h1 hne]
  refine ⟨rfl, List.mem_cons_self _ _, List.mem_cons_self _ _,
    place_sentinel_self s.ram, ?_⟩
  rw [@accessStep_hit ⟨place (-1) (-1) s.ram, -1 :: s.usage, -1 :: s.mp⟩ (-1)
    (List.mem_cons_self _ _)]

/-- Witness for C10 at the initial state. -/
theorem sentinel_access_witness :
    ((-1 : Int) ∉ initState.mp ∧ initState.usage.length < 3) ∧
    ((accessStep initState (-1)).cls = Classification.MISS ∧
     (-1 : Int) ∈ (accessStep initState (-1)).state.usage ∧
     (-1 : Int) ∈ (accessStep initState (-1)).state.mp ∧
     (accessStep initState (-1)).state.ram = initState.ram ∧
     (accessStep (accessStep initState (-1)).state (-1)).cls =
       Classification.HIT) :=
  ⟨⟨by decide, by decide⟩, sentinel_access initState (by decide) (by decide)⟩

/-- Claim C7: for a resident id, the HIT promotion moves id to the front of
the recency order, keeps the relative order of all other residents (the rest
of the new order is an order-preserving sublist of the old), and leaves the
set of residents unchanged. -/
theorem touch_promotes (inputs : List Int) (h : ∀ x ∈ inputs, 0 ≤ x)
    (id : Int) (hid : id ∈ (execState inputs).mp) :
    (accessStep (execState inputs) id).state.usage =
      id :: (execState inputs).usage.erase id ∧
    List.Sublist ((execState inputs).usage.erase id) ((execState inputs).usage) ∧
    List.Perm ((accessStep (execState inputs) id).state.usage)
      ((execState inputs).usage) ∧
    (∀ x : Int, x ∈ (accessStep (execState inputs) id).state.usage ↔
      x ∈ (execState inputs).usage) := by
  obtain ⟨hnd, hneg, hlen, hperm, front, hram, hfp⟩ := inv_exec inputs h
  have hidu : id ∈ (execState inputs).usage := hperm.mem_iff.mp hid
  have hp : List.Perm (moveToFront id (execState inputs).usage)
      ((execState inputs).usage) := (List.perm_cons_erase hidu).symm
  rw [accessStep_hit hid]
  exact ⟨rfl, List.erase_sublist _ _, hp, fun x => hp.mem_iff⟩

/-- Witness for C7: promoting 2 in the state reached by [1,2,3]. -/
theorem touch_promotes_witness :
    ((∀ x ∈ [1, 2, 3], (0 : Int) ≤ x) ∧ (2 : Int) ∈ (execState [1, 2, 3]).mp) ∧
    ((accessStep (execState [1, 2, 3]) 2).state.usage =
       2 :: (execState [1, 2, 3]).usage.erase 2 ∧
     List.Sublist ((execState [1, 2, 3]).usage.erase 2)
       ((execState [1, 2, 3]).usage) ∧
     List.Perm ((accessStep (execState [1, 2, 3]) 2).state.usage)
       ((execState [1, 2, 3]).usage) ∧
     (∀ x : Int, x ∈ (accessStep (execState [1, 2, 3]) 2).state.usage ↔
       x ∈ (execState [1, 2, 3]).usage)) :=
  ⟨⟨by decide, by decide⟩, touch_promotes [1, 2, 3] (by decide) 2 (by decide)⟩

/-- Writing at the index where a list splits replaces exactly that element. -/
theorem set_append_length (l₁ l₂ : List Int) (a x : Int) :
    (l₁ ++ a :: l₂).set l₁.length x = l₁ ++ x :: l₂ := by
  induction l₁ with
  | nil => rfl
  | cons b bs ih =>
    show b :: ((bs ++ a :: l₂).set bs.length x) = b :: (bs ++ x :: l₂)
    rw [ih]

/-- Claim C1: in every reachable state (non-negative inputs), an access of a
non-negative id follows the specified transition: resident id gives HIT,
promotion to the front and no victim; non-resident id gives MISS, a victim is
produced exactly when the resident count is 3, id is pushed to the front of
the recency order, entered in the map, and written into the frame table. -/
theorem access_transition (inputs : List Int) (h : ∀ x ∈ inputs, 0 ≤ x)
    (id : Int) (hid : 0 ≤ id) :
    (id ∈ (execState inputs).mp →
      (accessStep (execState inputs) id).cls = Classification.HIT ∧
      (accessStep (execState inputs) id).state.usage =
        moveToFront id (execState inputs).usage ∧
      (accessStep (execState inputs) id).state.usage.head? = some id ∧
      (accessStep (execState inputs) id).victim = -1 ∧
      (accessStep (execState inputs) id).state.ram = (execState inputs).ram) ∧
    (id ∉ (execState inputs).mp →
      (accessStep (execState inputs) id).cls = Classification.MISS ∧
      ((accessStep (execState inputs) id).victim ≠ -1 ↔
        (execState inputs).usage.length = 3) ∧
      (accessStep (execState inputs) id).state.usage.head? = some id ∧
      id ∈ (accessStep (execState inputs) id).state.mp ∧
      id ∈ (accessStep (execState inputs) id).state.ram) := by
  have hs := inv_exec inputs h
  constructor
  · intro hmem
    rw [accessStep_hit hmem]
    exact ⟨rfl, rfl, rfl, rfl, rfl⟩
  · intro hmem
    by_cases hlen3 : (execState inputs).usage.length = 3
    · rcases miss_full_effects hs hmem hlen3 with
        ⟨v, ys, l₁, l₂, _, _, hvne, _, _, _, _, _, hstep⟩
      rw [hstep]
      exact ⟨rfl, ⟨fun _ => hlen3, fun _ => hvne⟩, rfl,
        List.mem_cons_self _ _,
        List.mem_append_right _ (List.mem_cons_self _ _)⟩
    · rcases miss_small_effects hs hmem hlen3 with ⟨l₁, l₂, _, _, _, _, hstep⟩
      rw [hstep]
      exact ⟨rfl, ⟨fun hv => absurd rfl hv, fun hc => absurd hc hlen3⟩, rfl,
        List.mem_cons_self _ _,
        List.mem_append_right _ (List.mem_cons_self _ _)⟩

/-- Witness for C1: a MISS at capacity after [1,2,3]. -/
theorem access_transition_witness :
    ((∀ x ∈ [1, 2, 3], (0 : Int) ≤ x) ∧ (0 : Int) ≤ 4) ∧
    ((4 ∈ (execState [1, 2, 3]).mp →
      (accessStep (execState [1, 2, 3]) 4).cls = Classification.HIT ∧
      (accessStep (execState [1, 2, 3]) 4).state.usage =
        moveToFront 4 (execState [1, 2, 3]).usage ∧
      (accessStep (execState [1, 2, 3]) 4).state.usage.head? = some 4 ∧
      (accessStep (execState [1, 2, 3]) 4).victim = -1 ∧
      (accessStep (execState [1, 2, 3]) 4).state.ram =
        (execState [1, 2, 3]).ram) ∧
    (4 ∉ (execState [1, 2, 3]).mp →
      (accessStep (execState [1, 2, 3]) 4).cls = Classification.MISS ∧
      ((accessStep (execState [1, 2, 3]) 4).victim ≠ -1 ↔
        (execState [1, 2, 3]).usage.length = 3) ∧
      (accessStep (execState [1, 2, 3]) 4).state.usage.head? = some 4 ∧
      4 ∈ (accessStep (execState [1, 2, 3]) 4).state.mp ∧
      4 ∈ (accessStep (execState [1, 2, 3]) 4).state.ram)) :=
  ⟨⟨by decide, by decide⟩, access_transition [1, 2, 3] (by decide) 4 (by decide)⟩

/-- Claim C3: in every reachable state (non-negative inputs) the resident
count is at most 3, the number of non-sentinel frame slots equals the
resident count, and the multiset of non-sentinel slot contents equals the
contents of the recency structure. -/
theorem frames_match_tracker (inputs : List Int) (h : ∀ x ∈ inputs, 0 ≤ x) :
    (execState inputs).usage.length ≤ 3 ∧
    ((execState inputs).ram.filter (fun r => decide (r ≠ -1))).length =
      (execState inputs).usage.length ∧
    List.Perm ((execState inputs).ram.filter (fun r => decide (r ≠ -1)))
      ((execState inputs).usage) := by
  obtain ⟨hnd, hneg, hlen, hperm, front, hram, hfp⟩ := inv_exec inputs h
  have h1 : front.filter (fun r => decide (r ≠ -1)) = front := by
    rw [List.filter_eq_self]
    intro a ha
    simp only [decide_eq_true_eq]
    exact fun hc => hneg (hc ▸ hfp.mem_iff.mp ha)
  have h2 : (List.replicate (3 - (execState inputs).usage.length)
      (-1 : Int)).filter (fun r => decide (r ≠ -1)) = [] := by
    rw [List.filter_replicate]
    simp
  have hfilter :
      (execState inputs).ram.filter (fun r => decide (r ≠ -1)) = front := by
    rw [hram, List.filter_append, h1, h2, List.append_nil]
  rw [hfilter]
  exact ⟨hlen, hfp.length_eq, hfp⟩

/-- Witness for C3 after the reference input sequence. -/
theorem frames_match_tracker_witness :
    (∀ x ∈ [1, 2, 3, 1, 4], (0 : Int) ≤ x) ∧
    ((execState [1, 2, 3, 1, 4]).usage.length ≤ 3 ∧
     ((execState [1, 2, 3, 1, 4]).ram.filter
        (fun r => decide (r ≠ -1))).length =
       (execState [1, 2, 3, 1, 4]).usage.length ∧
     List.Perm ((execState [1, 2, 3, 1, 4]).ram.filter
        (fun r => decide (r ≠ -1)))
       ((execState [1, 2, 3, 1, 4]).usage)) :=
  ⟨by decide, frames_match_tracker [1, 2, 3, 1, 4] (by decide)⟩

/-- Claim C4: in every reachable state (non-negative inputs), a MISS never
violates the internal-consistency conditions: at capacity the tracker is
non-empty (so eviction is well defined), the placement scan always meets a
slot that is empty or holds the victim, and the new id does get written into
the frame table. -/
theorem no_internal_errors (inputs : List Int) (h : ∀ x ∈ inputs, 0 ≤ x)
    (id : Int) (hid : 0 ≤ id) (hmem : id ∉ (execState inputs).mp) :
    ((execState inputs).usage.length = 3 → (execState inputs).usage ≠ []) ∧
    (∃ r ∈ (execState inputs).ram,
      r = -1 ∨ r = (accessStep (execState inputs) id).victim) ∧
    id ∈ (accessStep (execState inputs) id).state.ram := by
  have hs := inv_exec inputs h
  by_cases hlen3 : (execState inputs).usage.length = 3
  · rcases miss_full_effects hs hmem hlen3 with
      ⟨v, ys, l₁, l₂, hy, _, _, _, _, hram, _, _, hstep⟩
    rw [hstep]
    refine ⟨fun _ hnil => ?_, ⟨v, ?_, Or.inr rfl⟩, ?_⟩
    · rw [hnil] at hy; simp at hy
    · rw [hram]; exact List.mem_append_right _ (List.mem_cons_self _ _)
    · exact List.mem_append_right _ (List.mem_cons_self _ _)
  · rcases miss_small_effects hs hmem hlen3 with ⟨l₁, l₂, hram, _, _, _, hstep⟩
    rw [hstep]
    refine ⟨fun hc => absurd hc hlen3, ⟨-1, ?_, Or.inl rfl⟩, ?_⟩
    · rw [hram]; exact List.mem_append_right _ (List.mem_cons_self _ _)
    · exact List.mem_append_right _ (List.mem_cons_self _ _)

/-- Witness for C4: a MISS at capacity after [1,2,3]. -/
theorem no_internal_errors_witness :
    ((∀ x ∈ [1, 2, 3], (0 : Int) ≤ x) ∧ (0 : Int) ≤ 4 ∧
      4 ∉ (execState [1, 2, 3]).mp) ∧
    (((execState [1, 2, 3]).usage.length = 3 →
        (execState [1, 2, 3]).usage ≠ []) ∧
     (∃ r ∈ (execState [1, 2, 3]).ram,
        r = -1 ∨ r = (accessStep (execState [1, 2, 3]) 4).victim) ∧
     4 ∈ (accessStep (execState [1, 2, 3]) 4).state.ram) :=
  ⟨⟨by decide, by decide, by decide⟩,
    no_internal_errors [1, 2, 3] (by decide) 4 (by decide) (by decide)⟩

/-- Claim C5: in every reachable state (non-negative inputs), the placement
on a MISS is the strict left-to-right scan: with a victim evicted the first
slot holding the victim is replaced (no sentinel slot and no other victim
slot precedes it), without one the first sentinel slot is filled, and in both
cases all other slots are untouched. -/
theorem placement_scan (inputs : List Int) (h : ∀ x ∈ inputs, 0 ≤ x)
    (id : Int) (hid : 0 ≤ id) (hmem : id ∉ (execState inputs).mp) :
    ((execState inputs).usage.length = 3 →
      ∃ l₁ l₂, (execState inputs).ram =
          l₁ ++ (accessStep (execState inputs) id).victim :: l₂ ∧
        (accessStep (execState inputs) id).victim ∉ l₁ ∧ (-1 : Int) ∉ l₁ ∧
        (accessStep (execState inputs) id).state.ram = l₁ ++ id :: l₂) ∧
    ((execState inputs).usage.length ≠ 3 →
      ∃ l₁ l₂, (execState inputs).ram = l₁ ++ (-1 : Int) :: l₂ ∧
        (-1 : Int) ∉ l₁ ∧
        (accessStep (execState inputs) id).state.ram = l₁ ++ id :: l₂) := by
  have hs := inv_exec inputs h
  constructor
  · intro hlen3
    rcases miss_full_effects hs hmem hlen3 with
      ⟨v, ys, l₁, l₂, _, _, _, _, _, hram, hvl, hnl, hstep⟩
    rw [hstep]
    exact ⟨l₁, l₂, hram, hvl, hnl, rfl⟩
  · intro hlen3
    rcases miss_small_effects hs hmem hlen3 with
      ⟨l₁, l₂, hram, hnl, _, _, hstep⟩
    rw [hstep]
    exact ⟨l₁, l₂, hram, hnl, rfl⟩

/-- Witness for C5: a MISS at capacity after [1,2,3]. -/
theorem placement_scan_witness :
    ((∀ x ∈ [1, 2, 3], (0 : Int) ≤ x) ∧ (0 : Int) ≤ 4 ∧
      4 ∉ (execState [1, 2, 3]).mp) ∧
    (((execState [1, 2, 3]).usage.length = 3 →
      ∃ l₁ l₂, (execState [1, 2, 3]).ram =
          l₁ ++ (accessStep (execState [1, 2, 3]) 4).victim :: l₂ ∧
        (accessStep (execState [1, 2, 3]) 4).victim ∉ l₁ ∧ (-1 : Int) ∉ l₁ ∧
        (accessStep (execState [1, 2, 3]) 4).state.ram = l₁ ++ 4 :: l₂) ∧
    ((execState [1, 2, 3]).usage.length ≠ 3 →
      ∃ l₁ l₂, (execState [1, 2, 3]).ram = l₁ ++ (-1 : Int) :: l₂ ∧
        (-1 : Int) ∉ l₁ ∧
        (accessStep (execState [1, 2, 3]) 4).state.ram = l₁ ++ 4 :: l₂)) :=
  ⟨⟨by decide, by decide, by decide⟩,
    placement_scan [1, 2, 3] (by decide) 4 (by decide) (by decide)⟩

/-- Claim C6: in every reachable state (non-negative inputs), eviction on a
non-empty tracker removes and returns the back (least recently used) element
and removes it from the lookup map; and the simulation performs this eviction
exactly on a MISS at resident count 3 (on a HIT, or a MISS below capacity, no
resident is removed). -/
theorem evict_lru_spec (inputs : List Int) (h : ∀ x ∈ inputs, 0 ≤ x)
    (id : Int) (hid : 0 ≤ id) :
    ((execState inputs).usage ≠ [] →
      ∃ ys v, (execState inputs).usage = ys ++ [v] ∧
        (evictLRU (execState inputs)).1 = v ∧
        (evictLRU (execState inputs)).2.usage = ys ∧
        v ∉ (evictLRU (execState inputs)).2.mp ∧
        List.Perm ((evictLRU (execState inputs)).2.mp) ys) ∧
    (id ∉ (execState inputs).mp → (execState inputs).usage.length = 3 →
      accessStep (execState inputs) id =
        ⟨⟨place id (evictLRU (execState inputs)).1 (execState inputs).ram,
          id :: (evictLRU (execState inputs)).2.usage,
          id :: (evictLRU (execState inputs)).2.mp⟩,
          Classification.MISS, (evictLRU (execState inputs)).1⟩) ∧
    ((id ∈ (execState inputs).mp ∨ (execState inputs).usage.length ≠ 3) →
      ∀ x ∈ (execState inputs).usage,
        x ∈ (accessStep (execState inputs) id).state.usage) := by
  obtain ⟨hnd, hneg, hlen, hperm, front, hram, hfp⟩ := inv_exec inputs h
  refine ⟨?_, ?_, ?_⟩
  · intro hne
    rcases List.eq_nil_or_concat' (execState inputs).usage with hnil | ⟨ys, v, hy⟩
    · exact absurd hnil hne
    · have hvic : (execState inputs).usage.getLast?.getD (-1) = v := by
        rw [hy, List.getLast?_concat]; rfl
      have hdrop : (execState inputs).usage.dropLast = ys := by
        rw [hy, List.dropLast_concat]
      have hmpnd : (execState inputs).mp.Nodup := hperm.symm.nodup hnd
      have hvys : v ∉ ys := by
        rw [hy] at hnd
        rcases List.nodup_append.mp hnd with ⟨_, _, h3⟩
        exact fun hc => h3 hc (List.mem_singleton.mpr rfl)
      have herase_usage : (execState inputs).usage.erase v = ys := by
        rw [hy, List.erase_append_right _ hvys, List.erase_cons_head,
          List.append_nil]
      refine ⟨ys, v, hy, ?_, ?_, ?_, ?_⟩
      · simp [evictLRU, hvic]
      · simp [evictLRU, hdrop]
      · simp only [evictLRU, hvic]
        exact hmpnd.not_mem_erase
      · simp only [evictLRU, hvic]
        exact herase_usage ▸ hperm.erase v
  · intro hmem hlen3
    rw [accessStep_miss_full hmem hlen3]
    rfl
  · intro hcase x hx
    have hres : ∀ hmem : id ∈ (execState inputs).mp,
        x ∈ (accessStep (execState inputs) id).state.usage := by
      intro hmem
      rw [accessStep_hit hmem]
      by_cases hxid : x = id
      · rw [hxid]; exact List.mem_cons_self _ _
      · exact List.mem_cons_of_mem _ ((List.mem_erase_of_ne hxid).mpr hx)
    rcases hcase with hmem | hlen3
    · exact hres hmem
    · by_cases hmem : id ∈ (execState inputs).mp
      · exact hres hmem
      · rw [accessStep_miss_small hmem hlen3]
        exact List.mem_cons_of_mem _ hx

/-- Witness for C6: the state after [1,2,3] with the access 4. -/
theorem evict_lru_spec_witness :
    ((∀ x ∈ [1, 2, 3], (0 : Int) ≤ x) ∧ (0 : Int) ≤ 4) ∧
    (((execState [1, 2, 3]).usage ≠ [] →
      ∃ ys v, (execState [1, 2, 3]).usage = ys ++ [v] ∧
        (evictLRU (execState [1, 2, 3])).1 = v ∧
        (evictLRU (execState [1, 2, 3])).2.usage = ys ∧
        v ∉ (evictLRU (execState [1, 2, 3])).2.mp ∧
        List.Perm ((evictLRU (execState [1, 2, 3])).2.mp) ys) ∧
    (4 ∉ (execState [1, 2, 3]).mp → (execState [1, 2, 3]).usage.length = 3 →
      accessStep (execState [1, 2, 3]) 4 =
        ⟨⟨place 4 (evictLRU (execState [1, 2, 3])).1 (execState [1, 2, 3]).ram,
          4 :: (evictLRU (execState [1, 2, 3])).2.usage,
          4 :: (evictLRU (execState [1, 2, 3])).2.mp⟩,
          Classification.MISS, (evictLRU (execState [1, 2, 3])).1⟩) ∧
    ((4 ∈ (execState [1, 2, 3]).mp ∨ (execState [1, 2, 3]).usage.length ≠ 3) →
      ∀ x ∈ (execState [1, 2, 3]).usage,
        x ∈ (accessStep (execState [1, 2, 3]) 4).state.usage)) :=
  ⟨⟨by decide, by decide⟩, evict_lru_spec [1, 2, 3] (by decide) 4 (by decide)⟩

/-- Claim C9: in every reachable state (non-negative inputs) the occupied
slots form a contiguous left prefix of the frame table — the first
resident-count slots are non-sentinel and all later slots hold -1 — and a
MISS below capacity therefore writes at the slot index equal to the resident
count before the access. -/
theorem frames_left_packed (inputs : List Int) (h : ∀ x ∈ inputs, 0 ≤ x)
    (id : Int) (hid : 0 ≤ id) :
    (execState inputs).ram.length = 3 ∧
    (∀ r ∈ (execState inputs).ram.take (execState inputs).usage.length,
      r ≠ -1) ∧
    (execState inputs).ram.drop (execState inputs).usage.length =
      List.replicate (3 - (execState inputs).usage.length) (-1) ∧
    (id ∉ (execState inputs).mp → (execState inputs).usage.length < 3 →
      (accessStep (execState inputs) id).state.ram =
        (execState inputs).ram.set (execState inputs).usage.length id) := by
  have hs := inv_exec inputs h
  obtain ⟨hnd, hneg, hlen, hperm, front, hram, hfp⟩ := inv_exec inputs h
  have hfl : front.length = (execState inputs).usage.length := hfp.length_eq
  refine ⟨?_, ?_, ?_, ?_⟩
  · rw [hram, List.length_append, List.length_replicate, hfl]; omega
  · rw [hram, List.take_left' hfl]
    intro r hr
    exact fun hc => hneg (hc ▸ hfp.mem_iff.mp hr)
  · rw [hram, List.drop_left' hfl]
  · intro hmem hlt
    have hne : (execState inputs).usage.length ≠ 3 := by omega
    rcases miss_small_effects hs hmem hne with ⟨l₁, l₂, hram2, _, hll, _, hstep⟩
    rw [hstep, hram2, ← hll, set_append_length]

/-- Witness for C9: the under-capacity state after [1]. -/
theorem frames_left_packed_witness :
    ((∀ x ∈ [1], (0 : Int) ≤ x) ∧ (0 : Int) ≤ 2) ∧
    ((execState [1]).ram.length = 3 ∧
     (∀ r ∈ (execState [1]).ram.take (execState [1]).usage.length, r ≠ -1) ∧
     (execState [1]).ram.drop (execState [1]).usage.length =
       List.replicate (3 - (execState [1]).usage.length) (-1) ∧
     (2 ∉ (execState [1]).mp → (execState [1]).usage.length < 3 →
       (accessStep (execState [1]) 2).state.ram =
         (execState [1]).ram.set (execState [1]).usage.length 2)) :=
  ⟨⟨by decide, by decide⟩, frames_left_packed [1] (by decide) 2 (by decide)⟩

end LRUSim
